import Mathlib

/-!
Verification of the YOLOv8 detection post-processing pipeline found in
`yolov8/yolov8.ipynb`: the Distribution Focal Loss decoder (`DFL`), the box
assembler (`dist2bbox`), the fused decoding step (`post_process`), and the
detection filter (`non_max_suppression`, whose implementation lives in the
external `yolov8_utils` module and is therefore modelled from the design
spec).

Tensors are embedded as index functions `Fin B → Fin C → Fin A → ℝ`
(batch, channel, anchor), mirroring the `[b, c, a]` layout the Python code
works with after `view`/`transpose`.  PyTorch's `softmax`, `sigmoid` and
the arithmetic are modelled over the reals.
-/

namespace Yolo

/-- The `x.view(b, 4, self.c1, a)` reshape inside `DFL.forward` (`c1 = 16`):
channel `c` of the flat 64-channel tensor becomes side `c / 16`, bin
`c % 16` (row-major order). -/
def dflView {B A : ℕ} (x : Fin B → Fin 64 → Fin A → ℝ) :
    Fin B → Fin 4 → Fin 16 → Fin A → ℝ :=
  fun b s i a => x b ⟨s.val * 16 + i.val, by omega⟩ a

/-- The `.transpose(2, 1)` inside `DFL.forward`: swap the side and bin
axes, giving a `[b, 16, 4, a]` tensor. -/
def transpose21 {B A : ℕ} (t : Fin B → Fin 4 → Fin 16 → Fin A → ℝ) :
    Fin B → Fin 16 → Fin 4 → Fin A → ℝ :=
  fun b i s a => t b s i a

/-- The `.softmax(1)` inside `DFL.forward`: softmax along the 16-bin axis
(dim 1 of the `[b, 16, 4, a]` tensor). -/
noncomputable def softmaxDim1 {B A : ℕ}
    (t : Fin B → Fin 16 → Fin 4 → Fin A → ℝ) :
    Fin B → Fin 16 → Fin 4 → Fin A → ℝ :=
  fun b i s a => Real.exp (t b i s a) / ∑ j : Fin 16, Real.exp (t b j s a)

/-- `DFL.forward` from the notebook: the input `[b, 64, a]` tensor is
viewed as `[b, 4, 16, a]`, transposed to `[b, 16, 4, a]`, softmaxed along
the bin axis, and convolved with the frozen 1×1 kernel whose 16 input
weights are the bin indices `0..15` (`torch.arange(c1)`), then viewed back
to `[b, 4, a]`. -/
noncomputable def DFL_forward {B A : ℕ} (x : Fin B → Fin 64 → Fin A → ℝ) :
    Fin B → Fin 4 → Fin A → ℝ :=
  fun b s a =>
    ∑ i : Fin 16, (i.val : ℝ) * softmaxDim1 (transpose21 (dflView x)) b i s a

/-- Flattening a `[batch, 4, 16, numAnchors]` logit tensor into the
`[batch, 64, numAnchors]` layout that `DFL.forward` receives (inverse of
`dflView`): channel `c` holds side `c / 16`, bin `c % 16`. -/
def flatten4 {B A : ℕ} (x : Fin B → Fin 4 → Fin 16 → Fin A → ℝ) :
    Fin B → Fin 64 → Fin A → ℝ :=
  fun b c a => x b ⟨c.val / 16, by omega⟩ ⟨c.val % 16, by omega⟩ a

theorem dflView_flatten4 {B A : ℕ} (x : Fin B → Fin 4 → Fin 16 → Fin A → ℝ) :
    dflView (flatten4 x) = x := by
  funext b s i a
  have hs := s.isLt
  have hi := i.isLt
  have h1 : (s.val * 16 + i.val) / 16 = s.val := by omega
  have h2 : (s.val * 16 + i.val) % 16 = i.val := by omega
  simp only [dflView, flatten4]
  congr 1
  · exact Fin.ext h1
  · exact Fin.ext h2

theorem DFL_forward_flatten4_eq {B A : ℕ}
    (x : Fin B → Fin 4 → Fin 16 → Fin A → ℝ) (b : Fin B) (s : Fin 4)
    (a : Fin A) :
    DFL_forward (flatten4 x) b s a =
      ∑ i : Fin 16,
        (i.val : ℝ) * (Real.exp (x b s i a) / ∑ j : Fin 16, Real.exp (x b s j a)) := by
  simp [DFL_forward, softmaxDim1, transpose21, dflView_flatten4]

/-- **C1.** For every input tensor of shape `[batch, 4, 16, numAnchors]`,
`DFL.forward` returns a `[batch, 4, numAnchors]` tensor whose entry for a
given side and anchor is the dot product of the softmax of that side's 16
bin logits with the bin indices `0..15` — the expected bin index under the
softmax distribution. -/
theorem DFL_forward_expected_bin {B A : ℕ}
    (x : Fin B → Fin 4 → Fin 16 → Fin A → ℝ) (b : Fin B) (s : Fin 4)
    (a : Fin A) :
    DFL_forward (flatten4 x) b s a =
      ∑ i : Fin 16,
        (i.val : ℝ) * (Real.exp (x b s i a) / ∑ j : Fin 16, Real.exp (x b s j a)) :=
  DFL_forward_flatten4_eq x b s a

theorem softmax_dot_shift (t : Fin 16 → ℝ) (d : ℝ) :
    (∑ i : Fin 16,
        (i.val : ℝ) * (Real.exp (t i + d) / ∑ j : Fin 16, Real.exp (t j + d))) =
      ∑ i : Fin 16, (i.val : ℝ) * (Real.exp (t i) / ∑ j : Fin 16, Real.exp (t j)) := by
  have hd : Real.exp d ≠ 0 := Real.exp_ne_zero d
  refine Finset.sum_congr rfl (fun i _ => ?_)
  simp only [Real.exp_add, ← Finset.sum_mul]
  rw [mul_div_mul_right _ _ hd]

/-- **C7.** Adding a constant `c` to all 16 bin logits of one particular
side and anchor leaves the distribution decoder's output unchanged
(softmax shift-invariance of the expected bin index). -/
theorem DFL_forward_shift_invariant {B A : ℕ}
    (x : Fin B → Fin 4 → Fin 16 → Fin A → ℝ) (b0 : Fin B) (s0 : Fin 4)
    (a0 : Fin A) (c : ℝ) (b : Fin B) (s : Fin 4) (a : Fin A) :
    DFL_forward (flatten4 (fun b' s' i a' =>
        x b' s' i a' + if b' = b0 ∧ s' = s0 ∧ a' = a0 then c else 0)) b s a =
      DFL_forward (flatten4 x) b s a := by
  rw [DFL_forward_flatten4_eq, DFL_forward_flatten4_eq]
  exact softmax_dot_shift (fun i => x b s i a)
    (if b = b0 ∧ s = s0 ∧ a = a0 then c else 0)

/-- **C9.** Every continuous distance produced by `DFL.forward` lies in the
closed interval `[0, 15]`: it is a softmax-weighted average (a convex
combination) of the bin indices `0..15`. -/
theorem DFL_forward_range {B A : ℕ} (y : Fin B → Fin 64 → Fin A → ℝ)
    (b : Fin B) (s : Fin 4) (a : Fin A) :
    0 ≤ DFL_forward y b s a ∧ DFL_forward y b s a ≤ 15 := by
  have hS : (0 : ℝ) < ∑ j : Fin 16, Real.exp (transpose21 (dflView y) b j s a) :=
    Finset.sum_pos (fun j _ => Real.exp_pos _) Finset.univ_nonempty
  constructor
  · refine Finset.sum_nonneg (fun i _ => ?_)
    exact mul_nonneg (Nat.cast_nonneg _)
      (div_nonneg (Real.exp_pos _).le hS.le)
  · have hstep : DFL_forward y b s a ≤
        ∑ i : Fin 16, (15 : ℝ) *
          (Real.exp (transpose21 (dflView y) b i s a) /
            ∑ j : Fin 16, Real.exp (transpose21 (dflView y) b j s a)) := by
      refine Finset.sum_le_sum (fun i _ => ?_)
      refine mul_le_mul_of_nonneg_right ?_
        (div_nonneg (Real.exp_pos _).le hS.le)
      have := i.isLt
      exact_mod_cast Nat.le_of_lt_succ (by omega)
    refine hstep.trans ?_
    rw [← Finset.mul_sum, ← Finset.sum_div, div_self hS.ne']
    norm_num

/-- `dist2bbox(distance, anchor_points, xywh=True, dim=1)` from the
notebook, at the shapes `post_process` uses: the `[B, 4, A]` distance
tensor is split along dim 1 into `lt` (channels 0, 1) and `rb`
(channels 2, 3); `x1y1 = anchor_points - lt`; `x2y2 = anchor_points + rb`;
the result concatenates `(c_xy, wh)` when `xywh` is true and
`(x1y1, x2y2)` otherwise.  The `[1, 2, A]` anchor tensor
(`anchors.unsqueeze(0)`) broadcasts over the batch axis, hence is
batch-independent here. -/
noncomputable def dist2bbox {B A : ℕ} (distance : Fin B → Fin 4 → Fin A → ℝ)
    (anchor_points : Fin 2 → Fin A → ℝ) (xywh : Bool) :
    Fin B → Fin 4 → Fin A → ℝ :=
  let lt : Fin B → Fin 2 → Fin A → ℝ :=
    fun b c a => distance b ⟨c.val, by omega⟩ a
  let rb : Fin B → Fin 2 → Fin A → ℝ :=
    fun b c a => distance b ⟨c.val + 2, by omega⟩ a
  let x1y1 : Fin B → Fin 2 → Fin A → ℝ :=
    fun b c a => anchor_points c a - lt b c a
  let x2y2 : Fin B → Fin 2 → Fin A → ℝ :=
    fun b c a => anchor_points c a + rb b c a
  fun b c a =>
    if xywh then
      if h : c.val < 2 then (x1y1 b ⟨c.val, h⟩ a + x2y2 b ⟨c.val, h⟩ a) / 2
      else x2y2 b ⟨c.val - 2, by omega⟩ a - x1y1 b ⟨c.val - 2, by omega⟩ a
    else
      if h : c.val < 2 then x1y1 b ⟨c.val, h⟩ a
      else x2y2 b ⟨c.val - 2, by omega⟩ a

/-- **C2.** The box assembler puts the top-left corner at
`anchor − (left, top)` and the bottom-right corner at
`anchor + (right, bottom)`; with `xywh` it returns the corner average
(center) and corner difference (width, height), otherwise the corners
themselves; and multiplying by the slot's stride (as `post_process` does)
scales every coordinate.  Being a pure function of `(distance,
anchor_points, stride)`, the same inputs always yield the same box. -/
theorem dist2bbox_stride_spec {B A : ℕ}
    (distance : Fin B → Fin 4 → Fin A → ℝ)
    (anchor_points : Fin 2 → Fin A → ℝ) (stride : Fin A → ℝ)
    (b : Fin B) (a : Fin A) :
    dist2bbox distance anchor_points true b 0 a * stride a =
      ((anchor_points 0 a - distance b 0 a) +
        (anchor_points 0 a + distance b 2 a)) / 2 * stride a ∧
    dist2bbox distance anchor_points true b 1 a * stride a =
      ((anchor_points 1 a - distance b 1 a) +
        (anchor_points 1 a + distance b 3 a)) / 2 * stride a ∧
    dist2bbox distance anchor_points true b 2 a * stride a =
      ((anchor_points 0 a + distance b 2 a) -
        (anchor_points 0 a - distance b 0 a)) * stride a ∧
    dist2bbox distance anchor_points true b 3 a * stride a =
      ((anchor_points 1 a + distance b 3 a) -
        (anchor_points 1 a - distance b 1 a)) * stride a ∧
    dist2bbox distance anchor_points false b 0 a * stride a =
      (anchor_points 0 a - distance b 0 a) * stride a ∧
    dist2bbox distance anchor_points false b 1 a * stride a =
      (anchor_points 1 a - distance b 1 a) * stride a ∧
    dist2bbox distance anchor_points false b 2 a * stride a =
      (anchor_points 0 a + distance b 2 a) * stride a ∧
    dist2bbox distance anchor_points false b 3 a * stride a =
      (anchor_points 1 a + distance b 3 a) * stride a := by
  refine ⟨?_, ?_, ?_, ?_, ?_, ?_, ?_, ?_⟩ <;> rfl

/-- One raw model output tensor after the `xi.view(x[0].shape[0], 144, -1)`
reshape in `post_process`: a `[B, 144, n]` tensor whose last axis is the
flattened spatial grid of that feature level. -/
structure Feat (B : ℕ) where
  n : ℕ
  data : Fin B → Fin 144 → Fin n → ℝ

/-- Total number of prediction slots of a list of feature levels (the size
of dim 2 after `torch.cat([...], 2)`). -/
def totalA {B : ℕ} : List (Feat B) → ℕ
  | [] => 0
  | f :: fs => f.n + totalA fs

/-- The `torch.cat([xi.view(b, 144, -1) for xi in x], 2)` concatenation in
`post_process`: feature levels laid end to end along the anchor axis. -/
def catFeats {B : ℕ} : (fs : List (Feat B)) → Fin B → Fin 144 → Fin (totalA fs) → ℝ
  | [] => fun _ _ a => a.elim0
  | f :: fs => fun b c => Fin.append (f.data b c) (catFeats fs b c)

/-- The first half of `.split((16 * 4, 80), 1)`: channels `0..63` of the
concatenated tensor (the distribution logits). -/
def boxPart {B : ℕ} (x : List (Feat B)) :
    Fin B → Fin 64 → Fin (totalA x) → ℝ :=
  fun b c a => catFeats x b ⟨c.val, by omega⟩ a

/-- The second half of `.split((16 * 4, 80), 1)`: channels `64..143` of the
concatenated tensor (the class logits). -/
def clsPart {B : ℕ} (x : List (Feat B)) :
    Fin B → Fin 80 → Fin (totalA x) → ℝ :=
  fun b c a => catFeats x b ⟨64 + c.val, by omega⟩ a

/-- PyTorch's elementwise `Tensor.sigmoid`. -/
noncomputable def sigmoid (z : ℝ) : ℝ := 1 / (1 + Real.exp (-z))

/-- `post_process(x)` from the notebook, with the anchor and stride tables
(loaded there from `anchors.npy` / `strides.npy`) passed in explicitly at
the matching length: concatenate the levels, split into 64 distribution
channels and 80 class channels, decode the distribution logits with
`DFL(16)`, assemble boxes with `dist2bbox(..., xywh=True, dim=1)`, scale
by the per-slot strides, append the sigmoided class scores
(`torch.cat((dbox, cls.sigmoid()), 1)`), and return `(y, x)`. -/
noncomputable def post_process {B : ℕ} (x : List (Feat B))
    (anchors : Fin 2 → Fin (totalA x) → ℝ)
    (strides : Fin (totalA x) → ℝ) :
    (Fin B → Fin 84 → Fin (totalA x) → ℝ) × List (Feat B) :=
  let dbox : Fin B → Fin 4 → Fin (totalA x) → ℝ :=
    fun b c a => dist2bbox (DFL_forward (boxPart x)) anchors true b c a * strides a
  let y : Fin B → Fin 84 → Fin (totalA x) → ℝ :=
    fun b c a =>
      if h : c.val < 4 then dbox b ⟨c.val, h⟩ a
      else sigmoid (clsPart x b ⟨c.val - 4, by omega⟩ a)
  (y, x)

/-- **C3.** Per anchor slot, the fused tensor `y` holds the four decoded
box coordinates in pixel units (the stride-scaled `dist2bbox` output of
the DFL-decoded distribution logits) in channels `0..3`, followed in
channels `4..83` by 80 class probabilities obtained by applying the
sigmoid independently to each class logit — not a softmax across
classes. -/
theorem post_process_fused_layout {B : ℕ} (x : List (Feat B))
    (anchors : Fin 2 → Fin (totalA x) → ℝ)
    (strides : Fin (totalA x) → ℝ) (b : Fin B) (a : Fin (totalA x)) :
    (∀ c : Fin 4,
        (post_process x anchors strides).1 b ⟨c.val, by omega⟩ a =
          dist2bbox (DFL_forward (boxPart x)) anchors true b c a * strides a) ∧
    (∀ j : Fin 80,
        (post_process x anchors strides).1 b ⟨4 + j.val, by omega⟩ a =
          1 / (1 + Real.exp (-(clsPart x b j a)))) := by
  constructor
  · intro c
    have hc := c.isLt
    simp only [post_process]
    rw [dif_pos (show ((⟨c.val, by omega⟩ : Fin 84)).val < 4 from by exact hc)]
  · intro j
    have hj := j.isLt
    simp only [post_process, sigmoid]
    rw [dif_neg (show ¬ ((⟨4 + j.val, by omega⟩ : Fin 84)).val < 4 from by
      exact (by omega : ¬ (4 + j.val < 4)))]
    norm_num

/-- **C8.** Decoding is deterministic: two runs of `post_process` on the
same raw tensors with the same anchor and stride tables produce identical
fused outputs — the pipeline is a function of its input with no hidden
state. -/
theorem post_process_deterministic {B : ℕ} (x : List (Feat B))
    (anchors anchors' : Fin 2 → Fin (totalA x) → ℝ)
    (strides strides' : Fin (totalA x) → ℝ)
    (ha : anchors = anchors') (hs : strides = strides') :
    post_process x anchors strides = post_process x anchors' strides' := by
  rw [ha, hs]

/-- **C10.** `post_process` returns the input list `x` itself, unmutated,
as the second component of its result pair. -/
theorem post_process_returns_input {B : ℕ} (x : List (Feat B))
    (anchors : Fin 2 → Fin (totalA x) → ℝ)
    (strides : Fin (totalA x) → ℝ) :
    (post_process x anchors strides).2 = x := rfl

/-- PyTorch broadcast multiply of a `[B, 4, A]` tensor by a 1-D stride
tensor of dynamic length, modelling the `dist2bbox(...) * strides` step
when the stride table length need not match the slot count `A`: the
trailing dimensions broadcast when the length equals `A` (elementwise) or
equals `1` (the single stride is repeated across all slots); any other
mismatch raises a size error in PyTorch, modelled as `none`.  (When
`A = 1` and the table is longer, PyTorch would instead enlarge the output
to the table's length; that case falls outside the `[B, 4, A]` result
type, is mapped to `none` here, and no theorem below relies on it.) -/
noncomputable def mulStridesBroadcast {B A : ℕ}
    (t : Fin B → Fin 4 → Fin A → ℝ) (strides : List ℝ) :
    Option (Fin B → Fin 4 → Fin A → ℝ) :=
  if h : strides.length = A then
    some (fun b c a => t b c a * strides.get ⟨a.val, by omega⟩)
  else if h1 : strides.length = 1 then
    some (fun b c a => t b c a * strides.get ⟨0, by omega⟩)
  else none

/-- `post_process` with the stride table kept at its dynamic length (as
loaded from `strides.npy`), so that the behaviour on a table whose length
does not match the number of prediction slots is observable: the only
place the length is consulted is the broadcast multiply — there is no
validation at call entry. -/
noncomputable def post_process_dyn {B : ℕ} (x : List (Feat B))
    (anchors : Fin 2 → Fin (totalA x) → ℝ) (strides : List ℝ) :
    Option ((Fin B → Fin 84 → Fin (totalA x) → ℝ) × List (Feat B)) :=
  match mulStridesBroadcast
      (dist2bbox (DFL_forward (boxPart x)) anchors true) strides with
  | none => none
  | some dbox =>
    some (Prod.mk
      (fun b c a =>
        if h : c.val < 4 then dbox b ⟨c.val, h⟩ a
        else sigmoid (clsPart x b ⟨c.val - 4, by omega⟩ a))
      x)

theorem mulStridesBroadcast_singleton {B A : ℕ}
    (t : Fin B → Fin 4 → Fin A → ℝ) (s₀ : ℝ) :
    mulStridesBroadcast t [s₀] = some (fun b c a => t b c a * s₀) := by
  unfold mulStridesBroadcast
  by_cases h : ([s₀] : List ℝ).length = A
  · rw [dif_pos h]
    congr 1
    funext b c a
    congr 1
    exact List.getElem_singleton s₀ _
  · rw [dif_neg h]
    rfl

/-- A concrete raw output level with one anchor slot, batch 1, all logits
zero. -/
noncomputable def featZero : Feat 1 := ⟨1, fun _ _ _ => 0⟩

/-- A concrete two-level raw output: two prediction slots in total. -/
noncomputable def xTwoSlots : List (Feat 1) := [featZero, featZero]

/-- A concrete anchor table for `xTwoSlots`, all zero. -/
noncomputable def anchorsZero : Fin 2 → Fin (totalA xTwoSlots) → ℝ :=
  fun _ _ => 0

/-- **C5 (counterexample).** A stride table of length 1 fed to a pipeline
with 2 prediction slots is an invalid configuration by the claim
(anchor/stride table length ≠ number of slots), yet `post_process`
succeeds — the table is silently broadcast instead of the call failing
fast with a descriptive error. -/
theorem post_process_dyn_no_failfast :
    (post_process_dyn xTwoSlots anchorsZero [8]).isSome = true ∧
      ([(8 : ℝ)] : List ℝ).length ≠ totalA xTwoSlots := by
  constructor
  · rw [post_process_dyn, mulStridesBroadcast_singleton]
    rfl
  · decide

/-- **C5 (amended).** The pipeline performs no call-entry validation: a
stride table holding a single stride `s₀` is accepted for any slot count
and silently broadcast — every slot's box coordinates are scaled by `s₀`
— rather than rejected with a descriptive error; stride-table lengths
other than `1` or the slot count surface only as a tensor-size error at
the broadcast multiply itself, not at call entry. -/
theorem post_process_dyn_broadcasts_single_stride {B : ℕ}
    (x : List (Feat B)) (anchors : Fin 2 → Fin (totalA x) → ℝ) (s₀ : ℝ) :
    post_process_dyn x anchors [s₀] =
      some (Prod.mk
        (fun b c a =>
          if h : c.val < 4 then
            dist2bbox (DFL_forward (boxPart x)) anchors true b ⟨c.val, h⟩ a * s₀
          else sigmoid (clsPart x b ⟨c.val - 4, by omega⟩ a))
        x) := by
  rw [post_process_dyn, mulStridesBroadcast_singleton]

/-- Modelled from the spec: a decoded box in center form
`(cx, cy, w, h)`, as fused by `post_process`; the implementation of the
detection filter lives in the external `yolov8_utils` module, which is
not part of this repository. -/
structure Box where
  x : ℚ
  y : ℚ
  w : ℚ
  h : ℚ

/-- Modelled from the spec: one fused prediction row per anchor slot —
box coordinates followed by per-class probabilities. -/
structure Row where
  box : Box
  scores : List ℚ

/-- Modelled from the spec: a surviving detection — a decoded box plus a
class index, a confidence score, and its detection id (index in the
pre-filter list). -/
structure Det where
  box : Box
  cls : ℕ
  conf : ℚ
  idx : ℕ

/-- Modelled from the spec: "take the maximum class probability and its
class index"; on ties the lowest class index is reported.  Returns
`(index, value)`. -/
def argmaxScore : List ℚ → ℕ × ℚ
  | [] => (0, 0)
  | s :: rest =>
    let p := argmaxScore rest
    if p.2 > s then (p.1 + 1, p.2) else (0, s)

/-- Modelled from the spec: turn fused rows into candidate detections,
remembering each row's original index as the detection id. -/
def toDets (rows : List Row) : List Det :=
  rows.enum.map (fun p => ⟨p.2.box, (argmaxScore p.2.scores).1,
    (argmaxScore p.2.scores).2, p.1⟩)

/-- Modelled from the spec: intersection-over-union of two center-form
boxes — overlap area over union area (zero when the union is empty). -/
def iou (u v : Box) : ℚ :=
  let ux1 := u.x - u.w / 2
  let uy1 := u.y - u.h / 2
  let ux2 := u.x + u.w / 2
  let uy2 := u.y + u.h / 2
  let vx1 := v.x - v.w / 2
  let vy1 := v.y - v.h / 2
  let vx2 := v.x + v.w / 2
  let vy2 := v.y + v.h / 2
  let iw := max 0 (min ux2 vx2 - max ux1 vx1)
  let ih := max 0 (min uy2 vy2 - max uy1 vy1)
  let inter := iw * ih
  let uni := (ux2 - ux1) * (uy2 - uy1) + (vx2 - vx1) * (vy2 - vy1) - inter
  if uni = 0 then 0 else inter / uni

/-- Modelled from the spec: an emitted detection suppresses a remaining
candidate when their IoU exceeds the overlap threshold, within the same
class unless agnostic mode is set. -/
def suppresses (agnostic : Bool) (iouThr : ℚ) (d e : Det) : Bool :=
  (agnostic || d.cls == e.cls) && decide (iouThr < iou d.box e.box)

/-- Modelled from the spec: greedy selection — emit the highest-confidence
remaining candidate, drop the candidates it suppresses, stop when no
candidates remain or the emitted count reaches the maximum. -/
def nmsGreedy (agnostic : Bool) (iouThr : ℚ) : ℕ → List Det → List Det
  | _, [] => []
  | 0, _ :: _ => []
  | m + 1, d :: rest =>
    d :: nmsGreedy agnostic iouThr m
      (rest.filter (fun e => ! suppresses agnostic iouThr d e))

/-- Detections ordered by non-increasing confidence: `d` before `e` means
`e.conf ≤ d.conf`. -/
def confGE (d e : Det) : Prop := e.conf ≤ d.conf

instance : DecidableRel confGE :=
  fun d e => inferInstanceAs (Decidable (e.conf ≤ d.conf))

instance : IsTotal Det confGE := ⟨fun a b => le_total b.conf a.conf⟩

instance : IsTrans Det confGE := ⟨fun _ _ _ hab hbc => hbc.trans hab⟩

/-- Modelled from the spec: `non_max_suppression` — the implementation is
in the external `yolov8_utils` module, absent from this repository, so the
detection filter follows the design spec's contract: threshold on the
per-row maximum class probability, apply the optional class allow-list,
sort by confidence descending (stable), greedily suppress by IoU, cap the
output at the maximum; a maximum ≤ 0 is a configuration error. -/
def non_max_suppression (rows : List Row) (confThr iouThr : ℚ)
    (classes : Option (List ℕ)) (agnostic : Bool) (maxDet : ℤ) :
    Except String (List Det) :=
  if maxDet ≤ 0 then Except.error "invalid configuration"
  else
    let cands := (toDets rows).filter (fun d => decide (confThr ≤ d.conf))
    let allowed := match classes with
      | none => cands
      | some cs => cands.filter (fun d => cs.contains d.cls)
    Except.ok (nmsGreedy agnostic iouThr maxDet.toNat
      (List.insertionSort confGE allowed))

theorem nmsGreedy_sublist (agnostic : Bool) (iouThr : ℚ) :
    ∀ (m : ℕ) (l : List Det),
      List.Sublist (nmsGreedy agnostic iouThr m l) l := by
  intro m
  induction m with
  | zero => intro l; cases l <;> simp [nmsGreedy]
  | succ m ih =>
    intro l
    cases l with
    | nil => simp [nmsGreedy]
    | cons d rest =>
      rw [nmsGreedy]
      exact List.Sublist.cons₂ d ((ih _).trans (List.filter_sublist rest))

theorem nmsGreedy_length_le_fuel (agnostic : Bool) (iouThr : ℚ) :
    ∀ (m : ℕ) (l : List Det), (nmsGreedy agnostic iouThr m l).length ≤ m := by
  intro m
  induction m with
  | zero => intro l; cases l <;> simp [nmsGreedy]
  | succ m ih =>
    intro l
    cases l with
    | nil => simp [nmsGreedy]
    | cons d rest =>
      rw [nmsGreedy]
      exact Nat.succ_le_succ (ih _)

/-- **C4.** As invoked by `inference` (confidence threshold 0.25, IoU
threshold 0.7, `max_det=300`, `classes=None`, `agnostic=False`), the
detection filter returns an ordered sequence of detections with
non-increasing confidence whose length is at most the configured maximum
(300) and at most the number of input rows. -/
theorem non_max_suppression_inference_bounds (rows : List Row) :
    ∃ out : List Det,
      non_max_suppression rows (1 / 4) (7 / 10) none false 300 =
          Except.ok out ∧
        out.length ≤ 300 ∧ out.length ≤ rows.length ∧
        out.Pairwise confGE := by
  refine ⟨nmsGreedy false (7 / 10) (300 : ℤ).toNat
    (List.insertionSort confGE
      ((toDets rows).filter (fun d => decide ((1 / 4 : ℚ) ≤ d.conf)))),
    ?_, ?_, ?_, ?_⟩
  · rw [non_max_suppression, if_neg (by norm_num)]
  · exact nmsGreedy_length_le_fuel false (7 / 10) _ _
  · refine le_trans ((nmsGreedy_sublist false (7 / 10) _ _).length_le) ?_
    rw [(List.perm_insertionSort confGE _).length_eq]
    refine le_trans (List.length_filter_le _ _) ?_
    simp [toDets]
  · exact List.Pairwise.sublist (nmsGreedy_sublist false (7 / 10) _ _)
      (List.sorted_insertionSort confGE _)

/-- Witness for `post_process_deterministic`: both table-equality
hypotheses are discharged by `rfl` at a concrete input. -/
theorem post_process_deterministic_witness :
    post_process xTwoSlots anchorsZero (fun _ => 1) =
      post_process xTwoSlots anchorsZero (fun _ => 1) :=
  post_process_deterministic xTwoSlots anchorsZero anchorsZero
    (fun _ => 1) (fun _ => 1) rfl rfl

end Yolo
